import Mathlib

set_option maxRecDepth 8192

/- Verification development for the miaollama streaming-response pipeline.

   Shallow embedding of src/core/llm/ollama_client.py and
   src/core/llm/enhanced_ollama.py.  Python strings are modelled as
   List Char; each definition mirrors the corresponding Python function
   statement by statement.  Regular-expression substitutions are embedded
   as explicit left-to-right scanners realising the leftmost, first-match
   semantics of re.sub for the concrete patterns used by the source. -/

/-! ### Character helpers -/

def btick : Char := Char.ofNat 96

def obraceC : Char := Char.ofNat 123

def cbraceC : Char := Char.ofNat 125

/-- Python str.strip() whitespace set (ASCII part, which is what the
pipeline's inputs use). -/
def isPyWS (c : Char) : Bool :=
  c = ' ' || c = '\t' || c = '\n' || c = '\r' || c = Char.ofNat 11 || c = Char.ofNat 12

def lstripWS (s : List Char) : List Char := s.dropWhile isPyWS

def rstripWS (s : List Char) : List Char := (s.reverse.dropWhile isPyWS).reverse

/-- Python str.strip(). -/
def pyStrip (s : List Char) : List Char := lstripWS (rstripWS s)

/-- Python regex word character, ASCII fragment of \w. -/
def isWordChar (c : Char) : Bool := c.isAlphanum || c = '_'

/-! ### EnhancedOllama._prepare_context (enhanced_ollama.py lines 41-54)

A message is modelled by its str() rendering, so Python's len(str(m))
size estimate is List.length. -/

def msgSize (m : List Char) : Nat := m.length

def sumSizes (l : List (List Char)) : Nat := (l.map msgSize).sum

/-- The while-loop of _prepare_context: while total size exceeds the
window and more than one message remains, pop the front message. -/
def evictLoop : List (List Char) → Nat → List (List Char)
  | [], _ => []
  | m :: rest, w =>
    if sumSizes (m :: rest) > w ∧ rest ≠ [] then evictLoop rest w else m :: rest

/-- _prepare_context: concatenate stored context and new messages, then
evict from the front while over budget. -/
def prepare_context (context messages : List (List Char)) (w : Nat) : List (List Char) :=
  evictLoop (context ++ messages) w

theorem evictLoop_drop (w : Nat) :
    ∀ l : List (List Char), ∃ k, k ≤ l.length ∧ evictLoop l w = l.drop k ∧
      ∀ j, j < k → sumSizes (l.drop j) > w ∧ (l.drop j).length > 1 := by
  intro l
  induction l with
  | nil => exact ⟨0, by simp [evictLoop]⟩
  | cons m rest ih =>
    by_cases h : sumSizes (m :: rest) > w ∧ rest ≠ []
    · obtain ⟨k, hk, he, hj⟩ := ih
      refine ⟨k + 1, by simpa using hk, ?_, ?_⟩
      · simpa [evictLoop, h] using he
      · intro j hj'
        match j with
        | 0 =>
          refine ⟨by simpa using h.1, ?_⟩
          simp only [List.drop_zero, List.length_cons]
          have : rest.length > 0 := List.length_pos.mpr h.2
          omega
        | j' + 1 =>
          have := hj j' (by omega)
          simpa using this
    · refine ⟨0, by simp, ?_, by omega⟩
      simp [evictLoop, h]

theorem evictLoop_post (w : Nat) :
    ∀ l : List (List Char), sumSizes (evictLoop l w) ≤ w ∨ (evictLoop l w).length ≤ 1 := by
  intro l
  induction l with
  | nil => right; simp [evictLoop]
  | cons m rest ih =>
    by_cases h : sumSizes (m :: rest) > w ∧ rest ≠ []
    · simpa [evictLoop, h] using ih
    · rw [Decidable.not_and_iff_or_not] at h
      rcases h with h | h
      · left
        simp only [evictLoop]
        rw [if_neg]
        · omega
        · intro hc; exact absurd hc.1 h
      · right
        have : rest = [] := by
          by_contra hc; exact h hc
        simp [evictLoop, this]

theorem evictLoop_ne_nil (w : Nat) :
    ∀ l : List (List Char), l ≠ [] → evictLoop l w ≠ [] := by
  intro l
  induction l with
  | nil => intro h; exact absurd rfl h
  | cons m rest ih =>
    intro _
    by_cases h : sumSizes (m :: rest) > w ∧ rest ≠ []
    · simpa [evictLoop, h] using ih h.2
    · simp [evictLoop, h]

/-! ### Heap model for the frame property of _prepare_context (C9)

Python lists are heap objects; `self.context + messages` allocates a
fresh list, and the loop's pop(0) mutates only that fresh list.  The
heap is a list of list objects addressed by index. -/

abbrev Heap := List (List (List Char))

def heapGet (h : Heap) (r : Nat) : List (List Char) := h.getD r []

/-- _prepare_context against the heap: allocate the concatenation
`self.context + messages` as a fresh object, run the eviction loop by
mutating that fresh object in place, and return the heap together with
the reference to the prepared list. -/
def prepare_context_heap (h : Heap) (ctxRef : Nat) (msgs : List (List Char)) (w : Nat) :
    Heap × Nat :=
  let allRef := h.length
  let h1 := h ++ [heapGet h ctxRef ++ msgs]
  let h2 := h1.set allRef (evictLoop (heapGet h1 allRef) w)
  (h2, allRef)

/-! ### EnhancedOllama.batch_process (enhanced_ollama.py lines 97-131)

The network is abstracted as a function from a prompt to the settled
outcome of its request: either the decoded response payload of
`await response.json()` or the exception the request raised.
`asyncio.gather` without return_exceptions=True propagates the first
exception to the awaiting caller instead of returning a list (sibling
tasks keep running but their results are discarded). -/

inductive JsonV where
  | null : JsonV
  | bool (b : Bool) : JsonV
  | num (n : Int) : JsonV
  | numRaw (lexeme : List Char) : JsonV
  | str (s : List Char) : JsonV
  | arr (xs : List JsonV) : JsonV
  | obj (kvs : List (List Char × JsonV)) : JsonV
deriving BEq

abbrev NetOutcome := Except (List Char) JsonV

/-- asyncio.gather with the default return_exceptions=False: the first
raised exception is propagated; only if every awaitable succeeds is the
ordered list of results returned. -/
def gatherModel : List NetOutcome → Except (List Char) (List JsonV)
  | [] => .ok []
  | .error e :: _ => .error e
  | .ok v :: rest => (gatherModel rest).map (fun l => v :: l)

/-- batch_process: one bounded request per prompt, results collected by
asyncio.gather in input order. -/
def batch_process_model (prompts : List (List Char)) (net : List Char → NetOutcome) :
    Except (List Char) (List JsonV) :=
  gatherModel (prompts.map net)

/-- A network on which the request for prompt "a" raises. -/
def netBoom (p : List Char) : NetOutcome :=
  if p = "a".toList then .error "boom".toList else .ok JsonV.null

/-! ### json.loads model (used by OllamaClient.extract_json and chat)

A recursive-descent JSON parser over List Char with a fuel argument
(the fuel is an upper bound on recursion depth; 3*length+8 is always
enough, so exhaustion never changes a result).  Mirrors the strict
behaviour of Python's json.loads on the fragment the pipeline can
meet: objects, arrays, strings with escapes, integers, floats (kept
as lexemes: no caller in scope consumes a float value), true/false/null,
and rejection of trailing garbage. -/

def isJsonWS (c : Char) : Bool := c = ' ' || c = '\t' || c = '\n' || c = '\r'

def hexVal (c : Char) : Option Nat :=
  if c.isDigit then some (c.toNat - 48)
  else if 'a' ≤ c && c ≤ 'f' then some (c.toNat - 87)
  else if 'A' ≤ c && c ≤ 'F' then some (c.toNat - 55)
  else none

def digitsToNat (ds : List Char) : Nat :=
  ds.foldl (fun a c => a * 10 + (c.toNat - 48)) 0

/-- JSON string body after the opening quote: returns (content, rest
after the closing quote).  Strict mode: raw control characters and
unknown escapes are rejected. -/
def parseStrBody : List Char → Option (List Char × List Char)
  | [] => none
  | c :: rest =>
    if c = '"' then some ([], rest)
    else if c = '\\' then
      match rest with
      | [] => none
      | e :: r2 =>
        if e = '"' then (parseStrBody r2).map (fun p => ('"' :: p.1, p.2))
        else if e = '\\' then (parseStrBody r2).map (fun p => ('\\' :: p.1, p.2))
        else if e = '/' then (parseStrBody r2).map (fun p => ('/' :: p.1, p.2))
        else if e = 'b' then (parseStrBody r2).map (fun p => (Char.ofNat 8 :: p.1, p.2))
        else if e = 'f' then (parseStrBody r2).map (fun p => (Char.ofNat 12 :: p.1, p.2))
        else if e = 'n' then (parseStrBody r2).map (fun p => ('\n' :: p.1, p.2))
        else if e = 'r' then (parseStrBody r2).map (fun p => ('\r' :: p.1, p.2))
        else if e = 't' then (parseStrBody r2).map (fun p => ('\t' :: p.1, p.2))
        else if e = 'u' then
          match r2 with
          | h1 :: h2 :: h3 :: h4 :: r3 =>
            match hexVal h1, hexVal h2, hexVal h3, hexVal h4 with
            | some a, some b, some c2, some d =>
              (parseStrBody r3).map
                (fun p => (Char.ofNat (((a * 16 + b) * 16 + c2) * 16 + d) :: p.1, p.2))
            | _, _, _, _ => none
          | _ => none
        else none
    else if c.toNat < 32 then none
    else (parseStrBody rest).map (fun p => (c :: p.1, p.2))

/-- Number literal.  Integers become JsonV.num; a literal with a
fraction or exponent becomes JsonV.numRaw holding its lexeme. -/
def parseNum (s : List Char) : Option (JsonV × List Char) :=
  let neg : Bool := s.take 1 = ['-']
  let s1 := if neg then s.drop 1 else s
  let ds := s1.takeWhile Char.isDigit
  let r1 := s1.dropWhile Char.isDigit
  if ds = [] then none
  else
    let hasFrac : Bool := r1.take 1 = ['.']
    let fds := if hasFrac then (r1.drop 1).takeWhile Char.isDigit else []
    let r2 := if hasFrac then (r1.drop 1).dropWhile Char.isDigit else r1
    if hasFrac && fds = [] then none
    else
      let hasExp : Bool := r2.take 1 = ['e'] || r2.take 1 = ['E']
      let sgn := if hasExp && ((r2.drop 1).take 1 = ['+'] || (r2.drop 1).take 1 = ['-'])
        then (r2.drop 1).take 1 else []
      let eds := if hasExp then ((r2.drop 1).drop sgn.length).takeWhile Char.isDigit else []
      let r3 := if hasExp then ((r2.drop 1).drop sgn.length).dropWhile Char.isDigit else r2
      if hasExp && eds = [] then none
      else if hasFrac || hasExp then
        let lexeme := (if neg then ['-'] else []) ++ ds ++
          (if hasFrac then '.' :: fds else []) ++
          (if hasExp then 'e' :: (sgn ++ eds) else [])
        some (JsonV.numRaw lexeme, r3)
      else
        some (JsonV.num (if neg then -(digitsToNat ds : Int) else (digitsToNat ds : Int)), r1)

mutual

def parseVal : Nat → List Char → Option (JsonV × List Char)
  | 0, _ => none
  | fuel + 1, s0 =>
    let s := s0.dropWhile isJsonWS
    match s with
    | [] => none
    | c :: rest =>
      if c = obraceC then parseObjBody fuel rest
      else if c = '[' then parseArrBody fuel rest
      else if c = '"' then (parseStrBody rest).map (fun p => (JsonV.str p.1, p.2))
      else if (c :: rest).take 4 = "true".toList then some (JsonV.bool true, (c :: rest).drop 4)
      else if (c :: rest).take 5 = "false".toList then some (JsonV.bool false, (c :: rest).drop 5)
      else if (c :: rest).take 4 = "null".toList then some (JsonV.null, (c :: rest).drop 4)
      else parseNum (c :: rest)

def parseObjBody : Nat → List Char → Option (JsonV × List Char)
  | 0, _ => none
  | fuel + 1, s0 =>
    let s := s0.dropWhile isJsonWS
    match s with
    | [] => none
    | c :: rest =>
      if c = cbraceC then some (JsonV.obj [], rest)
      else (parsePairs fuel (c :: rest)).map (fun p => (JsonV.obj p.1, p.2))

def parsePairs : Nat → List Char → Option (List (List Char × JsonV) × List Char)
  | 0, _ => none
  | fuel + 1, s0 =>
    let s := s0.dropWhile isJsonWS
    match s with
    | [] => none
    | c :: rest =>
      if c = '"' then
        match parseStrBody rest with
        | none => none
        | some (key, r1) =>
          match r1.dropWhile isJsonWS with
          | ':' :: r3 =>
            match parseVal fuel r3 with
            | none => none
            | some (v, r4) =>
              match r4.dropWhile isJsonWS with
              | ',' :: r6 => (parsePairs fuel r6).map (fun p => ((key, v) :: p.1, p.2))
              | d :: r7 => if d = cbraceC then some ([(key, v)], r7) else none
              | [] => none
          | _ => none
      else none

def parseArrBody : Nat → List Char → Option (JsonV × List Char)
  | 0, _ => none
  | fuel + 1, s0 =>
    let s := s0.dropWhile isJsonWS
    match s with
    | [] => none
    | c :: rest =>
      if c = ']' then some (JsonV.arr [], rest)
      else (parseItems fuel (c :: rest)).map (fun p => (JsonV.arr p.1, p.2))

def parseItems : Nat → List Char → Option (List JsonV × List Char)
  | 0, _ => none
  | fuel + 1, s =>
    match parseVal fuel s with
    | none => none
    | some (v, r1) =>
      match r1.dropWhile isJsonWS with
      | ',' :: r3 => (parseItems fuel r3).map (fun p => (v :: p.1, p.2))
      | ']' :: r4 => some ([v], r4)
      | _ => none

end

/-- json.loads: parse one value and require only whitespace after it. -/
def json_loads (s : List Char) : Option JsonV :=
  match parseVal (3 * s.length + 8) s with
  | some (j, rest) => if rest.dropWhile isJsonWS = [] then some j else none
  | none => none

/-! ### OllamaClient.extract_json (ollama_client.py lines 75-112) -/

def isOctDigit (c : Char) : Bool := '0' ≤ c && c ≤ '7'

/-- Model of json_str.encode('utf-8').decode('unicode_escape'): interpret
Python escape sequences literally; unrecognised escapes are kept verbatim;
a truncated escape raises (None).  The inputs in scope are ASCII, so the
utf-8 byte round-trip is the identity on the unescaped characters. -/
def unicodeUnescape : List Char → Option (List Char)
  | [] => some []
  | c :: rest =>
    if c = '\\' then
      match rest with
      | [] => none
      | e :: r2 =>
        if e = '\n' then unicodeUnescape r2
        else if e = '\\' then (unicodeUnescape r2).map (fun l => '\\' :: l)
        else if e = '\'' then (unicodeUnescape r2).map (fun l => '\'' :: l)
        else if e = '"' then (unicodeUnescape r2).map (fun l => '"' :: l)
        else if e = 'a' then (unicodeUnescape r2).map (fun l => Char.ofNat 7 :: l)
        else if e = 'b' then (unicodeUnescape r2).map (fun l => Char.ofNat 8 :: l)
        else if e = 'f' then (unicodeUnescape r2).map (fun l => Char.ofNat 12 :: l)
        else if e = 'n' then (unicodeUnescape r2).map (fun l => '\n' :: l)
        else if e = 'r' then (unicodeUnescape r2).map (fun l => '\r' :: l)
        else if e = 't' then (unicodeUnescape r2).map (fun l => '\t' :: l)
        else if e = 'v' then (unicodeUnescape r2).map (fun l => Char.ofNat 11 :: l)
        else if e = 'x' then
          match r2 with
          | h1 :: h2 :: r3 =>
            match hexVal h1, hexVal h2 with
            | some a, some b => (unicodeUnescape r3).map (fun l => Char.ofNat (a * 16 + b) :: l)
            | _, _ => none
          | _ => none
        else if e = 'u' then
          match r2 with
          | h1 :: h2 :: h3 :: h4 :: r3 =>
            match hexVal h1, hexVal h2, hexVal h3, hexVal h4 with
            | some a, some b, some c2, some d =>
              (unicodeUnescape r3).map
                (fun l => Char.ofNat (((a * 16 + b) * 16 + c2) * 16 + d) :: l)
            | _, _, _, _ => none
          | _ => none
        else if isOctDigit e then
          let o := (r2.takeWhile isOctDigit).take 2
          let v := o.foldl (fun a d => a * 8 + (d.toNat - 48)) (e.toNat - 48)
          (unicodeUnescape (r2.drop o.length)).map (fun l => Char.ofNat v :: l)
        else (unicodeUnescape r2).map (fun l => '\\' :: e :: l)
    else (unicodeUnescape rest).map (fun l => c :: l)
termination_by s => s.length
decreasing_by all_goals (simp [List.length_drop]; try omega)

/-- re.sub(r'[\n\r]', '', s). -/
def stripNLCR (s : List Char) : List Char :=
  s.filter (fun c => !(c = '\n' || c = '\r'))

/-- extract_json: strip the text; try json.loads directly; otherwise take
the span from the first open brace to the last close brace and retry,
falling back to an unescape pass and then to newline removal (the
newline-removal pass works on the unescaped string when the unescape
itself succeeded, mirroring Python's reassignment of json_str); all
failures end in None, never an exception.  One representational note:
a successfully parsed JSON null is Python's None, which the source
cannot tell apart from extraction failure; the model keeps the parsed
null as some JsonV.null. -/
def extract_json (text : List Char) : Option JsonV :=
  let t := pyStrip text
  match json_loads t with
  | some j => some j
  | none =>
    match t.findIdx? (fun c => c = obraceC), t.reverse.findIdx? (fun c => c = cbraceC) with
    | some st, some rj =>
      let en := t.length - 1 - rj
      if st < en then
        let js := (t.drop st).take (en + 1 - st)
        match json_loads js with
        | some j => some j
        | none =>
          match unicodeUnescape js with
          | some u =>
            match json_loads u with
            | some j => some j
            | none => json_loads (stripNLCR u)
          | none => json_loads (stripNLCR js)
      else none
    | _, _ => none

/-! ### OllamaClient.clean_response (ollama_client.py lines 29-57)

Each re.sub is embedded as a left-to-right scanner with the leftmost,
earliest-closing match semantics of the concrete pattern. -/

/-- Does pat occur as the leading run of s? -/
def startsWithL : List Char → List Char → Bool
  | [], _ => true
  | _ :: _, [] => false
  | p :: ps, c :: cs => p = c && startsWithL ps cs

/-- Split s at the first occurrence of the literal pattern pat:
returns (before, after-the-pattern). -/
def splitLit (pat : List Char) : List Char → Option (List Char × List Char)
  | [] => if pat = [] then some ([], []) else none
  | c :: rest =>
    if startsWithL pat (c :: rest) then some ([], (c :: rest).drop pat.length)
    else (splitLit pat rest).map (fun p => (c :: p.1, p.2))

theorem startsWithL_spec : ∀ (pat s : List Char), startsWithL pat s = true →
    s = pat ++ s.drop pat.length := by
  intro pat
  induction pat with
  | nil => intro s _; simp
  | cons p ps ih =>
    intro s h
    cases s with
    | nil => simp [startsWithL] at h
    | cons c cs =>
      simp only [startsWithL, Bool.and_eq_true, decide_eq_true_eq] at h
      obtain ⟨rfl, h2⟩ := h
      simpa using ih cs h2

theorem splitLit_spec {pat : List Char} : ∀ {s a b : List Char},
    splitLit pat s = some (a, b) → s = a ++ pat ++ b := by
  intro s
  induction s with
  | nil =>
    intro a b h
    by_cases hp : pat = []
    · simp only [splitLit, hp, if_pos rfl, Option.some.injEq, Prod.mk.injEq] at h
      obtain ⟨rfl, rfl⟩ := h
      simp [hp]
    · simp [splitLit, hp] at h
  | cons c rest ih =>
    intro a b h
    by_cases hs : startsWithL pat (c :: rest) = true
    · simp only [splitLit, hs, if_true, Option.some.injEq, Prod.mk.injEq] at h
      obtain ⟨rfl, rfl⟩ := h
      simpa using startsWithL_spec pat (c :: rest) hs
    · rw [splitLit, if_neg (by simp [hs])] at h
      cases hsp : splitLit pat rest with
      | none => rw [hsp] at h; simp at h
      | some p =>
        rw [hsp] at h
        simp only [Option.map_some', Option.some.injEq, Prod.mk.injEq] at h
        obtain ⟨rfl, rfl⟩ := h
        simp [ih (a := p.1) (b := p.2) (by rw [hsp])]

/-- text.replace('~~', '〜〜'): non-overlapping left-to-right replacement. -/
def tildeSub : List Char → List Char
  | '~' :: '~' :: rest => '〜' :: '〜' :: tildeSub rest
  | c :: rest => c :: tildeSub rest
  | [] => []

def thinkOpenPat : List Char := "<think>".toList

def thinkClosePat : List Char := "</think>".toList

/-- Python's content.split('\n'): split on newlines, keeping empty pieces. -/
def pySplitNL : List Char → List (List Char)
  | [] => [[]]
  | c :: rest =>
    if c = '\n' then [] :: pySplitNL rest
    else
      match pySplitNL rest with
      | l :: ls => (c :: l) :: ls
      | [] => [[c]]

/-- '\n'.join(...). -/
def joinNL : List (List Char) → List Char
  | [] => []
  | [l] => l
  | l :: rest => l ++ '\n' :: joinNL rest

/-- format_think: the replacement function for one reasoning block.  The
regex <think>\s*(.*?)\s*</think> with content.strip() amounts to
stripping the whole region between the tags, since group(1) differs from
the region only by edge whitespace. -/
def formatThink (inner : List Char) : List Char :=
  let content := pyStrip inner
  let styled := joinNL (((pySplitNL content).filter (fun l => pyStrip l ≠ [])).map pyStrip)
  "\n<pre>\n".toList ++ styled ++ "\n</pre>\n".toList

/-- re.sub(r'<think>\s*(.*?)\s*</think>', format_think, text, flags=re.DOTALL):
the non-greedy body makes each match run from an opening tag to the first
closing tag after it; with no closing tag after the first opening tag no
later opening tag can match either, so the text is left unchanged. -/
def thinkSubF : Nat → List Char → List Char
  | 0, s => s
  | fuel + 1, s =>
    match splitLit thinkOpenPat s with
    | none => s
    | some (a, rest) =>
      match splitLit thinkClosePat rest with
      | none => s
      | some (inner, tail) => a ++ formatThink inner ++ thinkSubF fuel tail

def thinkSub (s : List Char) : List Char := thinkSubF s.length s

/-- Split s at the first '>' character. -/
def splitGt : List Char → Option (List Char × List Char)
  | [] => none
  | c :: rest =>
    if c = '>' then some ([], rest)
    else (splitGt rest).map (fun p => (c :: p.1, p.2))

theorem splitGt_spec : ∀ {s a b : List Char},
    splitGt s = some (a, b) → s = a ++ '>' :: b := by
  intro s
  induction s with
  | nil => intro a b h; simp [splitGt] at h
  | cons c rest ih =>
    intro a b h
    by_cases hc : c = '>'
    · simp only [splitGt, hc, if_pos rfl, Option.some.injEq, Prod.mk.injEq] at h
      obtain ⟨rfl, rfl⟩ := h
      simp [hc]
    · rw [splitGt, if_neg hc] at h
      cases hsp : splitGt rest with
      | none => rw [hsp] at h; simp at h
      | some p =>
        rw [hsp] at h
        simp only [Option.map_some', Option.some.injEq, Prod.mk.injEq] at h
        obtain ⟨rfl, rfl⟩ := h
        simp [ih (a := p.1) (b := p.2) (by rw [hsp])]

/-- re.sub(r'<(?!/?pre)[^>]+>', '', text): strip every tag except the
pre tags; on a failed match (pre lookahead, no '>', or an empty inner
span) the scanner advances one character, as re.sub does. -/
def stripTagsF : Nat → List Char → List Char
  | 0, s => s
  | fuel + 1, s =>
    match s with
    | [] => []
    | c :: rest =>
      if c = '<' then
        if startsWithL "pre".toList rest || startsWithL "/pre".toList rest then
          '<' :: stripTagsF fuel rest
        else
          match splitGt rest with
          | some (inner, tail) =>
            if inner = [] then '<' :: stripTagsF fuel rest else stripTagsF fuel tail
          | none => '<' :: stripTagsF fuel rest
      else c :: stripTagsF fuel rest

def stripTags (s : List Char) : List Char := stripTagsF s.length s

/-- clean_response: tilde replacement, reasoning-block formatting, tag
stripping, final strip (ollama_client.py lines 29-57). -/
def clean_response (s : List Char) : List Char :=
  pyStrip (stripTags (thinkSub (tildeSub s)))

/-! ### OllamaClient.format_markdown (ollama_client.py lines 59-73) -/

def tksL : List Char := [btick, btick, btick]

def startsTriple : List Char → Bool
  | a :: b :: c :: _ => a = btick && b = btick && c = btick
  | _ => false

/-- Split s at the first occurrence of three consecutive backticks. -/
def splitTriple : List Char → Option (List Char × List Char)
  | [] => none
  | c :: rest =>
    if startsTriple (c :: rest) then some ([], rest.drop 2)
    else (splitTriple rest).map (fun p => (c :: p.1, p.2))

theorem splitTriple_spec : ∀ {s a b : List Char},
    splitTriple s = some (a, b) → s = a ++ tksL ++ b := by
  intro s
  induction s with
  | nil => intro a b h; simp [splitTriple] at h
  | cons c rest ih =>
    intro a b h
    by_cases hs : startsTriple (c :: rest) = true
    · simp only [splitTriple, hs, if_pos, Option.some.injEq, Prod.mk.injEq] at h
      obtain ⟨rfl, rfl⟩ := h
      match rest, hs with
      | d :: e :: r3, hs =>
        simp only [startsTriple, Bool.and_eq_true, decide_eq_true_eq] at hs
        obtain ⟨⟨rfl, rfl⟩, rfl⟩ := hs
        simp [tksL]
    · rw [splitTriple, if_neg (by simp [hs])] at h
      cases hsp : splitTriple rest with
      | none => rw [hsp] at h; simp at h
      | some p =>
        rw [hsp] at h
        simp only [Option.map_some', Option.some.injEq, Prod.mk.injEq] at h
        obtain ⟨rfl, rfl⟩ := h
        simp [ih (a := p.1) (b := p.2) (by rw [hsp])]

theorem splitTriple_length {s a b : List Char} (h : splitTriple s = some (a, b)) :
    b.length + 3 ≤ s.length := by
  have := splitTriple_spec h
  subst this
  simp [tksL]
  try omega

/-- The greedy optional language capture (\w+)? of the fence pattern. -/
def codeLang (m : List Char) : List Char := m.takeWhile isWordChar

/-- The non-greedy body capture after the optional language and an
optional newline. -/
def codeBody (m : List Char) : List Char :=
  let body0 := m.drop (codeLang m).length
  if body0.take 1 = ['\n'] then body0.drop 1 else body0

/-- re.sub(r'```(\w+)?\n?(.*?)```', format_code_block, text, flags=re.DOTALL):
a match starts at the first triple backtick and closes at the next one
(the optional \w+ language and optional newline never contain a backtick,
so greedy language capture plus the non-greedy body always close at the
first later fence, and a fence with no later fence can never match).
The replacement is backticks, language, newline, stripped body, newline,
backticks. -/
def subCodeF : Nat → List Char → List Char
  | 0, s => s
  | fuel + 1, s =>
    match splitTriple s with
    | none => s
    | some (a, rest) =>
      match splitTriple rest with
      | none => s
      | some (m, tail) =>
        a ++ tksL ++ codeLang m ++ '\n' :: pyStrip (codeBody m) ++ '\n' :: tksL ++
          subCodeF fuel tail

def subCode (s : List Char) : List Char := subCodeF s.length s

/-- Split s at the first occurrence of two consecutive asterisks. -/
def startsStars : List Char → Bool
  | a :: b :: _ => a = '*' && b = '*'
  | _ => false

def splitStars : List Char → Option (List Char × List Char)
  | [] => none
  | c :: rest =>
    if startsStars (c :: rest) then some ([], rest.drop 1)
    else (splitStars rest).map (fun p => (c :: p.1, p.2))

theorem splitStars_spec : ∀ {s a b : List Char},
    splitStars s = some (a, b) → s = a ++ '*' :: '*' :: b := by
  intro s
  induction s with
  | nil => intro a b h; simp [splitStars] at h
  | cons c rest ih =>
    intro a b h
    by_cases hs : startsStars (c :: rest) = true
    · simp only [splitStars, hs, if_pos, Option.some.injEq, Prod.mk.injEq] at h
      obtain ⟨rfl, rfl⟩ := h
      match rest, hs with
      | d :: r2, hs =>
        simp only [startsStars, Bool.and_eq_true, decide_eq_true_eq] at hs
        obtain ⟨rfl, rfl⟩ := hs
        simp
    · rw [splitStars, if_neg (by simp [hs])] at h
      cases hsp : splitStars rest with
      | none => rw [hsp] at h; simp at h
      | some p =>
        rw [hsp] at h
        simp only [Option.map_some', Option.some.injEq, Prod.mk.injEq] at h
        obtain ⟨rfl, rfl⟩ := h
        simp [ih (a := p.1) (b := p.2) (by rw [hsp])]

theorem splitStars_length {s a b : List Char} (h : splitStars s = some (a, b)) :
    b.length + 2 ≤ s.length := by
  have := splitStars_spec h
  subst this
  simp
  try omega

/-- The bold re.sub: pattern two stars, non-greedy body, two stars, with
a replacement that re-renders
the matched text to itself; a first double-star with no later double-star
cannot match and leaves the rest unchanged (a later opening would need a
closing double-star of its own, which would also close the first). -/
def subBoldF : Nat → List Char → List Char
  | 0, s => s
  | fuel + 1, s =>
    match splitStars s with
    | none => s
    | some (a, rest) =>
      match splitStars rest with
      | none => s
      | some (g, tail) => a ++ '*' :: '*' :: g ++ '*' :: '*' :: subBoldF fuel tail

def subBold (s : List Char) : List Char := subBoldF s.length s

def notStarNL (c : Char) : Bool := !(c = '*' || c = '\n')

theorem dropWhile_len_le (p : Char → Bool) : ∀ l : List Char, (l.dropWhile p).length ≤ l.length := by
  intro l
  induction l with
  | nil => simp [List.dropWhile]
  | cons c rest ih =>
    rw [List.dropWhile]
    split
    · simp only [List.length_cons]; omega
    · simp

/-- The italic re.sub: a single star not preceded or followed by a star,
a non-empty greedy run without stars or newlines, then a closing star
not followed by a star; the replacement re-renders the matched text to
itself.  The scanner tracks the previous character for the lookbehind
and advances one character past a star whose match attempt fails. -/
def subItalicGoF : Nat → Option Char → List Char → List Char
  | 0, _, s => s
  | _ + 1, _, [] => []
  | fuel + 1, prev, c :: rest =>
    if c = '*' then
      if prev ≠ some '*' ∧ rest.take 1 ≠ ['*'] then
        if rest.takeWhile notStarNL ≠ [] ∧ (rest.dropWhile notStarNL).take 1 = ['*'] ∧
            (rest.dropWhile notStarNL).take 2 ≠ ['*', '*'] then
          '*' :: rest.takeWhile notStarNL ++ '*' ::
            subItalicGoF fuel (some '*') ((rest.dropWhile notStarNL).drop 1)
        else '*' :: subItalicGoF fuel (some '*') rest
      else '*' :: subItalicGoF fuel (some '*') rest
    else c :: subItalicGoF fuel (some c) rest

def subItalic (s : List Char) : List Char := subItalicGoF s.length none s

/-- format_markdown: code-fence re-rendering, then the bold and italic
re-renderings, then a final strip (ollama_client.py lines 59-73). -/
def format_markdown (s : List Char) : List Char :=
  pyStrip (subItalic (subBold (subCode s)))

/-! ### OllamaClient.chat_stream (ollama_client.py lines 141-190)

One transport line either fails to decode (and is skipped) or carries a
message.content delta.  The accumulation buffer grows by each delta; a
newline in the buffer or a length above 80 triggers a flush: the cleaned
and markdown-formatted buffer is yielded when non-blank, and the buffer
is reset either way.  At a normal end of stream a leftover buffer gets
one final flush.  A non-200 status yields a single failure line; an
exception after some prefix of the lines yields str(e) after the units
already produced, with no final flush of the leftover buffer. -/

inductive StreamLine where
  | junk : StreamLine
  | content (s : List Char) : StreamLine

/-- The flush condition of line 171: `'\n' in buffer or len(buffer) > 80`. -/
def flushTrig (b : List Char) : Bool := b.contains '\n' || decide (b.length > 80)

/-- One loop iteration for a decoded content delta: append, then flush
if the buffer holds a newline or exceeds 80 characters.  Returns the new
buffer and the units yielded. -/
def streamStep (buf : List Char) (c : List Char) : List Char × List (List Char) :=
  let b := buf ++ c
  if flushTrig b then
    let cleaned := format_markdown (clean_response b)
    ([], if pyStrip cleaned ≠ [] then [cleaned] else [])
  else (b, [])

/-- The iter_lines loop: junk lines are skipped by the JSONDecodeError
handler; content lines go through streamStep. -/
def runStream : List Char → List StreamLine → List (List Char) × List Char
  | buf, [] => ([], buf)
  | buf, .junk :: rest => runStream buf rest
  | buf, .content c :: rest =>
    let p := streamStep buf c
    let q := runStream p.1 rest
    (p.2 ++ q.1, q.2)

/-- The final-buffer flush after the loop (lines 181-186). -/
def finalFlush (buf : List Char) : List (List Char) :=
  if buf ≠ [] then
    let cleaned := format_markdown (clean_response buf)
    if pyStrip cleaned ≠ [] then [cleaned] else []
  else []

inductive StreamEnd where
  | ok : StreamEnd
  | exc (msg : List Char) : StreamEnd

def statusFailLine (status : Nat) : List Char :=
  "请求失败：".toList ++ (Nat.repr status).toList

/-- chat_stream as observed by the caller: the list of yielded strings.
For status 200 and a normal end, the flushed units plus the final flush;
for a mid-stream exception raised after the given lines were processed,
the units produced so far followed by str(e); for a non-200 status a
single failure string. -/
def chat_stream_model (status : Nat) (lines : List StreamLine) (term : StreamEnd) :
    List (List Char) :=
  if status = 200 then
    match term with
    | .ok => (runStream [] lines).1 ++ finalFlush (runStream [] lines).2
    | .exc m => (runStream [] lines).1 ++ [m]
  else [statusFailLine status]

/-! ### OllamaClient.chat (ollama_client.py lines 114-139)

The transport outcome of requests.post is either a raised exception or a
response with a status code and a body.  The result dictionary is
modelled as its list of key-value entries. -/

inductive Transport where
  | exc (msg : List Char) : Transport
  | resp (status : Nat) (body : List Char) : Transport

def contentKey : List Char := "content".toList

def errorKey : List Char := "error".toList

/-- Python dict lookup: the last binding of a duplicated key wins. -/
def lookupLast (kvs : List (List Char × JsonV)) (k : List Char) : Option JsonV :=
  (kvs.reverse.find? (fun kv => kv.1 == k)).map (fun kv => kv.2)

/-- chat: build the payload (messages[-1] raises IndexError inside the
try when messages is empty), post, and shape the reply.  Every failure
path is caught and becomes an error entry: non-200 status, a body that
response.json() cannot parse, a parsed body without a "response" string
(clean_response on a non-string raises TypeError, also caught), and any
raised exception. -/
def chat_model (messages : List (List Char × List Char)) (t : Transport) :
    List (List Char × List Char) :=
  if messages = [] then [(errorKey, "list index out of range".toList)]
  else
    match t with
    | .exc m => [(errorKey, m)]
    | .resp status body =>
      if status = 200 then
        match json_loads body with
        | some (JsonV.obj kvs) =>
          match lookupLast kvs "response".toList with
          | some (JsonV.str v) => [(contentKey, clean_response v)]
          | some _ => [(errorKey, "expected string or bytes-like object".toList)]
          | none => [(errorKey, "响应格式错误".toList)]
        | some _ => [(errorKey, "响应格式错误".toList)]
        | none => [(errorKey, "Expecting value".toList)]
      else
        [(errorKey, "请求失败：".toList ++ (Nat.repr status).toList ++ " - ".toList ++ body)]

/-- Does pat occur as a contiguous run inside s? -/
def hasSub (pat s : List Char) : Bool :=
  match splitLit pat s with
  | some _ => true
  | none => false

/-! ### Claim theorems -/

/-- Claim C3: extract_json applied to the exact strings (JSON object
alone, the object between noise, the object before a newline) yields
the object with key a and value 1, and applied to a string with no JSON
yields the absent value. -/
theorem C3_extract_json_cases :
    extract_json ("\x7b\"a\":1\x7d".toList) = some (JsonV.obj [("a".toList, JsonV.num 1)]) ∧
    extract_json ("noise \x7b\"a\":1\x7d noise".toList) =
      some (JsonV.obj [("a".toList, JsonV.num 1)]) ∧
    extract_json ("\x7b\"a\":1\x7d\n".toList) = some (JsonV.obj [("a".toList, JsonV.num 1)]) ∧
    extract_json ("no json here".toList) = none :=
  ⟨rfl, rfl, rfl, rfl⟩

/-- Claim C5: budget enforcement removes whole messages from the front
exactly while the summed sizes exceed the budget and more than one
message remains (every removed front message was removed under that
guard), stops with either the budget met or a single message left,
never empties a non-empty list, and on sizes [5,5,5,5] with budget 12
leaves exactly the last two messages. -/
theorem C5_budget_eviction (context messages : List (List Char)) (w : Nat) :
    (∃ k, k ≤ (context ++ messages).length ∧
      prepare_context context messages w = (context ++ messages).drop k ∧
      ∀ j, j < k → sumSizes ((context ++ messages).drop j) > w ∧
        ((context ++ messages).drop j).length > 1) ∧
    (sumSizes (prepare_context context messages w) ≤ w ∨
      (prepare_context context messages w).length ≤ 1) ∧
    (context ++ messages ≠ [] → prepare_context context messages w ≠ []) ∧
    prepare_context ["aaaaa".toList, "bbbbb".toList] ["ccccc".toList, "ddddd".toList] 12 =
      ["ccccc".toList, "ddddd".toList] :=
  ⟨evictLoop_drop w (context ++ messages), evictLoop_post w (context ++ messages),
    evictLoop_ne_nil w (context ++ messages), rfl⟩

theorem C5_budget_eviction_witness :
    prepare_context ["aaaaa".toList] ["bbbbb".toList] 3 ≠ [] :=
  (C5_budget_eviction ["aaaaa".toList] ["bbbbb".toList] 3).2.2.1 (by decide)

/-- Claim C4 counterexample: with prompts ["a", "b"] where the request
for "a" raises 'boom', batch_process propagates the exception — the
caller gets no two-slot list of per-prompt payload-or-error results. -/
theorem C4_counterexample :
    batch_process_model ["a".toList, "b".toList] netBoom = Except.error "boom".toList := rfl

/-- Claim C4 amended: when every request succeeds batch dispatch returns
one raw payload per prompt in input order; when any request fails, the
exception propagates out of batch_process instead of a result list
(sibling requests are not cancelled but their results are discarded). -/
theorem C4_batch_amended (prompts : List (List Char)) (net : List Char → NetOutcome) :
    ((∀ p ∈ prompts, ∃ v, net p = .ok v) →
      ∃ l, batch_process_model prompts net = .ok l ∧
        List.Forall₂ (fun p v => net p = .ok v) prompts l) ∧
    ((∃ p ∈ prompts, ∃ e, net p = .error e) →
      ∃ e, batch_process_model prompts net = .error e) := by
  induction prompts with
  | nil =>
    constructor
    · intro _
      exact ⟨[], rfl, List.Forall₂.nil⟩
    · rintro ⟨p, hp, _⟩
      simp at hp
  | cons p rest ih =>
    constructor
    · intro hall
      obtain ⟨v, hv⟩ := hall p (by simp)
      obtain ⟨l, hl, hf⟩ := ih.1 (fun q hq => hall q (by simp [hq]))
      refine ⟨v :: l, ?_, List.Forall₂.cons hv hf⟩
      unfold batch_process_model at hl ⊢
      simp only [List.map_cons, gatherModel, hv, hl]
      rfl
    · rintro ⟨q, hq, e, he⟩
      rcases List.mem_cons.mp hq with rfl | hq'
      · cases hv : net q with
        | error e2 =>
          exact ⟨e2, by simp only [batch_process_model, List.map_cons, gatherModel, hv]⟩
        | ok v => rw [hv] at he; cases he
      · cases hv : net p with
        | error e2 =>
          exact ⟨e2, by simp only [batch_process_model, List.map_cons, gatherModel, hv]⟩
        | ok v =>
          obtain ⟨e3, he3⟩ := ih.2 ⟨q, hq', e, he⟩
          refine ⟨e3, ?_⟩
          unfold batch_process_model at he3 ⊢
          simp only [List.map_cons, gatherModel, hv, he3]
          rfl

theorem C4_batch_amended_witness :
    ∃ e, batch_process_model ["a".toList, "b".toList] netBoom = Except.error e :=
  (C4_batch_amended ["a".toList, "b".toList] netBoom).2
    ⟨"a".toList, by decide, "boom".toList, rfl⟩

/-- Claim C9: preparing the request context never mutates the stored
session context — the eviction loop works on the freshly allocated
concatenation, so the heap object the session's context field refers to
is unchanged by the call. -/
theorem C9_prepare_context_frame (h : Heap) (ctxRef : Nat) (msgs : List (List Char))
    (w : Nat) (hr : ctxRef < h.length) :
    heapGet (prepare_context_heap h ctxRef msgs w).1 ctxRef = heapGet h ctxRef := by
  have hne : h.length ≠ ctxRef := by omega
  simp only [prepare_context_heap, heapGet]
  rw [List.getD_eq_getElem?_getD, List.getD_eq_getElem?_getD]
  rw [List.getElem?_set_ne hne]
  rw [List.getElem?_append, if_pos hr]

theorem C9_prepare_context_frame_witness :
    heapGet (prepare_context_heap [["x".toList]] 0 ["yy".toList] 1).1 0 = [["x".toList]].getD 0 [] :=
  C9_prepare_context_frame [["x".toList]] 0 ["yy".toList] 1 (by decide)

/-- Claim C10: for every message list and transport outcome (raised
exception, non-200 status, unparseable body, body without a usable
"response" string, or success) the non-streaming chat returns a
dictionary with exactly one key, either "content" or "error"; totality
of the model is the never-raises half of the claim. -/
theorem C10_chat_total_exclusive (messages : List (List Char × List Char)) (t : Transport) :
    (chat_model messages t).map Prod.fst = [contentKey] ∨
    (chat_model messages t).map Prod.fst = [errorKey] := by
  unfold chat_model
  split
  · right; rfl
  · cases t with
    | exc m => right; rfl
    | resp status body =>
      by_cases hs : status = 200
      · subst hs
        dsimp only
        rw [if_pos rfl]
        cases hb : json_loads body with
        | none => right; rfl
        | some j =>
          cases j with
          | obj kvs =>
            dsimp only
            cases hk : lookupLast kvs ("response".toList) with
            | none => right; rfl
            | some v => cases v <;> simp
          | null => right; rfl
          | bool b => right; rfl
          | num n => right; rfl
          | numRaw l => right; rfl
          | str s2 => right; rfl
          | arr xs => right; rfl
      · dsimp only
        rw [if_neg hs]
        right; rfl

/-- Claim C1 counterexample: on the stream '<think>abc\n' then
'def</think>' the first chunk alone triggers a flush — the buffer holds
a newline — while the reasoning tag is still open: the unit 'abc' is
emitted and the buffer reset before the closing tag arrives, and the
block reaches the caller as two plain units rather than one preformatted
unit, so the no-flush-while-tag-open invariant fails. -/
theorem C1_counterexample :
    (streamStep [] "<think>abc\n".toList = ([], ["abc".toList]) ∧
      hasSub "<think>".toList "<think>abc\n".toList = true ∧
      hasSub "</think>".toList "<think>abc\n".toList = false) ∧
    chat_stream_model 200
        [.content "<think>abc\n".toList, .content "def</think>".toList] .ok =
      ["abc".toList, "def".toList] :=
  ⟨⟨rfl, rfl, rfl⟩, rfl⟩

/-- Claim C1 amended: the assembler's flush decision ignores tag state —
it flushes exactly on the newline/length trigger, so a split reasoning
block can be flushed mid-block (see the counterexample); when no trigger
fires while the tag is open, as in the stream '<think>abc' then
'def</think>', no flush happens until the closing tag has arrived and
the block is emitted at stream end as a single preformatted unit. -/
theorem C1_amended :
    chat_stream_model 200
        [.content "<think>abc".toList, .content "def</think>".toList] .ok =
      ["<pre>\nabcdef\n</pre>".toList] := rfl

/-- Claim C6: appending a chunk flushes exactly when the grown buffer
holds a newline or exceeds 80 characters — on the trigger the cleaned
and normalized buffer is emitted only when non-blank after trimming and
the buffer is reset to empty either way, and without the trigger the
buffer just grows with no emission; consequently a stored buffer never
satisfies the trigger at rest. -/
theorem C6_flush_exactly (buf c : List Char) (lines : List StreamLine) :
    (flushTrig (buf ++ c) = true →
      streamStep buf c = ([],
        if pyStrip (format_markdown (clean_response (buf ++ c))) ≠ []
        then [format_markdown (clean_response (buf ++ c))] else [])) ∧
    (flushTrig (buf ++ c) = false → streamStep buf c = (buf ++ c, [])) ∧
    (flushTrig buf = false → flushTrig (runStream buf lines).2 = false) := by
  refine ⟨?_, ?_, ?_⟩
  · intro h
    simp only [streamStep, h, if_true]
  · intro h
    simp only [streamStep, h, Bool.false_eq_true, if_false]
  · intro h
    induction lines generalizing buf with
    | nil => simpa [runStream]
    | cons line rest ih =>
      cases line with
      | junk => exact ih buf h
      | content c2 =>
        simp only [runStream]
        by_cases ht : flushTrig (buf ++ c2) = true
        · have : streamStep buf c2 = ([],
              if pyStrip (format_markdown (clean_response (buf ++ c2))) ≠ []
              then [format_markdown (clean_response (buf ++ c2))] else []) := by
            simp only [streamStep, ht, if_true]
          rw [this]
          exact ih [] (by decide)
        · have hf : flushTrig (buf ++ c2) = false := by
            simpa using ht
          have : streamStep buf c2 = (buf ++ c2, []) := by
            simp only [streamStep, hf, Bool.false_eq_true, if_false]
          rw [this]
          exact ih (buf ++ c2) hf

theorem C6_flush_exactly_witness :
    streamStep [] "hi\n".toList = ([], ["hi".toList]) :=
  ((C6_flush_exactly [] "hi\n".toList []).1 (by decide)).trans rfl

/-- Claim C7 counterexample: a stream that raises 'boom' before
producing anything yields exactly the same observable output as a
healthy stream whose only chunk cleans to the display unit 'boom' — the
error report is an ordinary yielded string, so the caller cannot
distinguish an error report from a display unit. -/
theorem C7_counterexample :
    chat_stream_model 200 [] (.exc "boom".toList) =
      chat_stream_model 200 [.content "boom\n".toList] .ok ∧
    chat_stream_model 200 [] (.exc "boom".toList) = ["boom".toList] :=
  ⟨rfl, rfl⟩

/-- Claim C7 amended: on a mid-stream exception every display unit
produced before the failure is still delivered, followed by str(e)
yielded as one final ordinary string unit — not distinguishable in kind
from a display unit — and text still buffered at the failure is dropped
without a final flush (concretely, a buffered chunk 'x' is lost). -/
theorem C7_amended (lines : List StreamLine) (e : List Char) :
    chat_stream_model 200 lines (.exc e) = (runStream [] lines).1 ++ [e] ∧
    chat_stream_model 200 [.content "x".toList] (.exc "e".toList) = ["e".toList] :=
  ⟨rfl, rfl⟩

/-! ### Bounded concurrency of batch_process (C8)

An interleaving semantics for asyncio.Semaphore(max_concurrent): each
task is waiting until it acquires a permit (possible only when a permit
is free), runs inside the `async with sem` block, and returns its permit
when it settles.  Any interleaving of acquire/finish steps is allowed;
the ceiling is the initial permit count. -/

inductive TaskPhase where
  | waiting : TaskPhase
  | running : TaskPhase
  | done : TaskPhase
deriving DecidableEq

structure BatchState where
  permits : Nat
  phases : List TaskPhase
deriving DecidableEq

/-- One scheduler step: a waiting task acquires a free permit, or a
running task settles and releases its permit (also on failure — the
`async with` releases on the error path too). -/
inductive BatchStep : BatchState → BatchState → Prop
  | acquire (st : BatchState) (i : Nat) (hi : i < st.phases.length)
      (hw : st.phases.get ⟨i, hi⟩ = .waiting) (hp : 0 < st.permits) :
      BatchStep st ⟨st.permits - 1, st.phases.set i .running⟩
  | finish (st : BatchState) (i : Nat) (hi : i < st.phases.length)
      (hr : st.phases.get ⟨i, hi⟩ = .running) :
      BatchStep st ⟨st.permits + 1, st.phases.set i .done⟩

/-- batch_process over n prompts with Semaphore(C): all tasks waiting,
C permits free. -/
def batchInit (n C : Nat) : BatchState :=
  ⟨C, List.replicate n .waiting⟩

/-- The number of requests outstanding at once. -/
def runningCount (st : BatchState) : Nat :=
  st.phases.countP (fun p => p == TaskPhase.running)

/-- A network with no failures, for concrete instantiation. -/
def netOk (_ : List Char) : NetOutcome := .ok JsonV.null

theorem countP_set_balance (p : TaskPhase → Bool) (v : TaskPhase) :
    ∀ (l : List TaskPhase) (i : Nat) (hi : i < l.length),
      (l.set i v).countP p + (if p (l.get ⟨i, hi⟩) then 1 else 0) =
        l.countP p + (if p v then 1 else 0) := by
  intro l
  induction l with
  | nil => intro i hi; simp at hi
  | cons a rest ih =>
    intro i hi
    cases i with
    | zero =>
      simp only [List.set, List.get, List.countP_cons]
      by_cases hv : p v = true <;> by_cases ha : p a = true <;> simp [hv, ha] <;> omega
    | succ j =>
      have hj : j < rest.length := by simpa using hi
      simp only [List.set, List.get, List.countP_cons]
      have hrec := ih j hj
      simp only [List.get_eq_getElem] at hrec ⊢
      by_cases ha : p a = true <;> simp [ha] <;> omega

theorem batch_invariant (n C : Nat) (st : BatchState)
    (h : Relation.ReflTransGen BatchStep (batchInit n C) st) :
    runningCount st + st.permits = C ∧ st.phases.length = n := by
  induction h with
  | refl =>
    refine ⟨?_, by simp [batchInit]⟩
    have hz : runningCount (batchInit n C) = 0 := by
      simp only [runningCount, batchInit]
      rw [List.countP_eq_zero.mpr]
      intro a ha
      have := List.eq_of_mem_replicate ha
      subst this
      decide
    simp only [batchInit] at hz
    simp [batchInit, hz]
  | tail hr hstep ih =>
    obtain ⟨ih1, ih2⟩ := ih
    cases hstep with
    | acquire i hi hw hp =>
      refine ⟨?_, by simpa using ih2⟩
      rename_i stp
      have hb := countP_set_balance (fun p => p == TaskPhase.running) TaskPhase.running
        stp.phases i hi
      rw [hw] at hb
      simp only [runningCount] at ih1 ⊢
      simp at hb
      omega
    | finish i hi hr2 =>
      refine ⟨?_, by simpa using ih2⟩
      rename_i stp
      have hb := countP_set_balance (fun p => p == TaskPhase.running) TaskPhase.done
        stp.phases i hi
      rw [hr2] at hb
      simp only [runningCount] at ih1 ⊢
      simp at hb
      omega

theorem gather_ok_forall (net : List Char → NetOutcome) :
    ∀ (prompts : List (List Char)) (l : List JsonV),
      batch_process_model prompts net = .ok l →
      List.Forall₂ (fun p v => net p = .ok v) prompts l := by
  intro prompts
  induction prompts with
  | nil =>
    intro l h
    simp only [batch_process_model, List.map_nil, gatherModel] at h
    cases h
    exact List.Forall₂.nil
  | cons p rest ih =>
    intro l h
    unfold batch_process_model at h
    simp only [List.map_cons] at h
    cases hv : net p with
    | error e => rw [hv] at h; simp [gatherModel] at h
    | ok v =>
      rw [hv] at h
      simp only [gatherModel] at h
      cases hg : gatherModel (rest.map net) with
      | error e => rw [hg] at h; simp [Except.map] at h
      | ok l2 =>
        rw [hg] at h
        simp only [Except.map, Option.map] at h
        cases h
        exact List.Forall₂.cons hv (ih l2 hg)

/-- Claim C8: in every reachable scheduler state of batch dispatch over
n prompts with ceiling C, at most C requests are running at once; and
whenever gather returns a result list, it has one slot per prompt with
slot i holding exactly the settled payload of prompt i, independent of
the interleaving. -/
theorem C8_bounded_ordered (n C : Nat) (st : BatchState)
    (h : Relation.ReflTransGen BatchStep (batchInit n C) st)
    (prompts : List (List Char)) (net : List Char → NetOutcome) (l : List JsonV)
    (hok : batch_process_model prompts net = .ok l) :
    runningCount st ≤ C ∧ st.phases.length = n ∧
    l.length = prompts.length ∧
    List.Forall₂ (fun p v => net p = .ok v) prompts l := by
  obtain ⟨h1, h2⟩ := batch_invariant n C st h
  have hf := gather_ok_forall net prompts l hok
  exact ⟨by omega, h2, (List.Forall₂.length_eq hf).symm, hf⟩

theorem C8_bounded_ordered_witness :
    runningCount ⟨3, [TaskPhase.done]⟩ ≤ 3 ∧
    (BatchState.mk 3 [TaskPhase.done]).phases.length = 1 ∧
    ([JsonV.null] : List JsonV).length = [("p".toList : List Char)].length ∧
    List.Forall₂ (fun p v => netOk p = .ok v) ["p".toList] [JsonV.null] := by
  have step1 : BatchStep (batchInit 1 3) ⟨2, [TaskPhase.running]⟩ :=
    BatchStep.acquire (batchInit 1 3) 0 (by decide) (by decide) (by decide)
  have step2 : BatchStep ⟨2, [TaskPhase.running]⟩ ⟨3, [TaskPhase.done]⟩ :=
    BatchStep.finish ⟨2, [TaskPhase.running]⟩ 0 (by decide) (by decide)
  exact C8_bounded_ordered 1 3 ⟨3, [TaskPhase.done]⟩
    (Relation.ReflTransGen.tail (Relation.ReflTransGen.tail Relation.ReflTransGen.refl step1)
      step2)
    ["p".toList] netOk [JsonV.null] rfl

/-! ### Idempotence of format_markdown (C2)

The toolkit: call a string safe when it holds no triple-backtick run
(splitTriple finds nothing).  The lemmas track how safety interacts
with cons, append, drop, trimming, and how splitTriple behaves on a
string assembled as prefix ++ fence ++ rest. -/

theorem startsTriple_iff {s : List Char} :
    startsTriple s = true ↔ ∃ r, s = btick :: btick :: btick :: r := by
  constructor
  · intro h
    match s, h with
    | a :: b :: c :: r, h =>
      simp only [startsTriple, Bool.and_eq_true, decide_eq_true_eq] at h
      obtain ⟨⟨rfl, rfl⟩, rfl⟩ := h
      exact ⟨r, rfl⟩
  · rintro ⟨r, rfl⟩
    simp [startsTriple]

theorem safe_not_starts {s : List Char} (h : splitTriple s = none) :
    startsTriple s = false := by
  cases s with
  | nil => rfl
  | cons c rest =>
    by_cases hst : startsTriple (c :: rest) = true
    · rw [splitTriple.eq_def] at h
      dsimp only at h
      rw [if_pos hst] at h
      cases h
    · simpa using hst

theorem splitTriple_cons_none {c : Char} {s : List Char} :
    splitTriple (c :: s) = none ↔ startsTriple (c :: s) = false ∧ splitTriple s = none := by
  rw [splitTriple.eq_def]
  dsimp only
  constructor
  · intro h
    by_cases hst : startsTriple (c :: s) = true
    · rw [if_pos hst] at h; cases h
    · have hf : startsTriple (c :: s) = false := by simpa using hst
      rw [hf] at h
      simp only [Bool.false_eq_true, if_false] at h
      cases hs : splitTriple s with
      | none => exact ⟨hf, rfl⟩
      | some p => rw [hs] at h; simp at h
  · rintro ⟨hf, hs⟩
    rw [hf]
    simp [hs]

theorem safe_cons {c : Char} {s : List Char} (hc : c ≠ btick)
    (hs : splitTriple s = none) : splitTriple (c :: s) = none := by
  rw [splitTriple_cons_none]
  refine ⟨?_, hs⟩
  by_contra hcon
  have ht : startsTriple (c :: s) = true := by
    cases hb : startsTriple (c :: s)
    · exact absurd hb hcon
    · rfl
  obtain ⟨r, he⟩ := startsTriple_iff.mp ht
  exact hc (by injection he)

theorem safe_cons_inv {c : Char} {s : List Char}
    (h : splitTriple (c :: s) = none) : splitTriple s = none :=
  (splitTriple_cons_none.mp h).2

theorem safe_app_left : ∀ {x z : List Char}, splitTriple (x ++ z) = none →
    splitTriple x = none := by
  intro x
  induction x with
  | nil => intro z _; rfl
  | cons c rest ih =>
    intro z h
    rw [List.cons_append] at h
    have hr := ih (safe_cons_inv h)
    rw [splitTriple_cons_none]
    refine ⟨?_, hr⟩
    by_contra hcon
    have ht : startsTriple (c :: rest) = true := by
      cases hb : startsTriple (c :: rest)
      · exact absurd hb hcon
      · rfl
    obtain ⟨r, he⟩ := startsTriple_iff.mp ht
    have hx2 : startsTriple (c :: (rest ++ z)) = true := by
      rw [startsTriple_iff]
      refine ⟨r ++ z, ?_⟩
      have h5 : c :: rest ++ z = btick :: btick :: btick :: r ++ z := by rw [he]
      simpa using h5
    have hx3 := safe_not_starts h
    rw [hx3] at hx2
    cases hx2

theorem safe_drop {s : List Char} (h : splitTriple s = none) :
    ∀ k, splitTriple (s.drop k) = none := by
  induction s with
  | nil => intro k; simp [splitTriple]
  | cons c rest ih =>
    intro k
    cases k with
    | zero => simpa using h
    | succ j => exact ih (safe_cons_inv h) j

theorem safe_dropWhile {p : Char → Bool} : ∀ {s : List Char},
    splitTriple s = none → splitTriple (s.dropWhile p) = none := by
  intro s
  induction s with
  | nil => intro h; simpa using h
  | cons c rest ih =>
    intro h
    rw [List.dropWhile]
    split
    · exact ih (safe_cons_inv h)
    · exact h

theorem safe_glue : ∀ {x w : List Char}, splitTriple x = none →
    splitTriple w = none → splitTriple (x ++ '\n' :: w) = none := by
  intro x
  induction x with
  | nil =>
    intro w _ hw
    exact safe_cons (by decide) hw
  | cons c rest ih =>
    intro w hx hw
    have hrec := ih (safe_cons_inv hx) hw
    rw [List.cons_append]
    rw [splitTriple_cons_none]
    refine ⟨?_, hrec⟩
    by_contra hcon
    have ht : startsTriple (c :: (rest ++ '\n' :: w)) = true := by
      cases hb : startsTriple (c :: (rest ++ '\n' :: w))
      · exact absurd hb hcon
      · rfl
    obtain ⟨r, he⟩ := startsTriple_iff.mp ht
    cases rest with
    | nil =>
      have : ('\n' : Char) = btick := by
        have := congrArg (fun l => l.get? 1) he
        simpa using this
      cases this
    | cons d r2 =>
      cases r2 with
      | nil =>
        have : ('\n' : Char) = btick := by
          have := congrArg (fun l => l.get? 2) he
          simpa using this
        cases this
      | cons e r3 =>
        have hstx : startsTriple (c :: d :: e :: r3) = true := by
          rw [startsTriple_iff]
          have h0 : c = btick := by injection he
          have h1 : d = btick := by
            have := congrArg (fun l => l.get? 1) he
            simpa using this
          have h2 : e = btick := by
            have := congrArg (fun l => l.get? 2) he
            simpa using this
          exact ⟨r3, by rw [h0, h1, h2]⟩
        have := safe_not_starts hx
        rw [this] at hstx
        cases hstx

theorem safe_words : ∀ {L z : List Char},
    (∀ c ∈ L, c ≠ btick) → splitTriple z = none → splitTriple (L ++ z) = none := by
  intro L
  induction L with
  | nil => intro z _ hz; simpa using hz
  | cons c rest ih =>
    intro z hL hz
    rw [List.cons_append]
    exact safe_cons (hL c (by simp)) (ih (fun d hd => hL d (by simp [hd])) hz)

theorem starts_transfer {c : Char} {x y z : List Char}
    (hy : y.take 2 = [btick, btick]) (hz : z.take 2 = [btick, btick])
    (h : startsTriple (c :: (x ++ y)) = true) :
    startsTriple (c :: (x ++ z)) = true := by
  obtain ⟨r, he⟩ := startsTriple_iff.mp h
  rw [startsTriple_iff]
  have hc : c = btick := by injection he
  match z, hz with
  | z0 :: z1 :: z2, hz =>
    simp only [List.take, List.cons.injEq, and_true] at hz
    obtain ⟨rfl, rfl⟩ := hz
    cases x with
    | nil => exact ⟨z2, by simp [hc]⟩
    | cons d x2 =>
      have hd : d = btick := by
        have := congrArg (fun l => l.get? 1) he
        simpa using this
      cases x2 with
      | nil => exact ⟨btick :: z2, by simp [hc, hd]⟩
      | cons e x3 =>
        have hee : e = btick := by
          have := congrArg (fun l => l.get? 2) he
          simpa using this
        exact ⟨x3 ++ btick :: btick :: z2, by simp [hc, hd, hee]⟩

/-- The region before the fence that splitTriple finds is fence-free,
even with two more backticks appended. -/
theorem splitTriple_prior_safe : ∀ {s a b : List Char},
    splitTriple s = some (a, b) → splitTriple (a ++ [btick, btick]) = none := by
  intro s
  induction s with
  | nil => intro a b h; simp [splitTriple] at h
  | cons c rest ih =>
    intro a b h
    by_cases hst : startsTriple (c :: rest) = true
    · rw [splitTriple.eq_def] at h
      dsimp only at h
      rw [if_pos hst] at h
      simp only [Option.some.injEq, Prod.mk.injEq] at h
      obtain ⟨rfl, rfl⟩ := h
      decide
    · rw [splitTriple.eq_def] at h
      dsimp only at h
      rw [if_neg hst] at h
      cases hsp : splitTriple rest with
      | none => rw [hsp] at h; simp at h
      | some p =>
        rw [hsp] at h
        simp only [Option.map_some', Option.some.injEq, Prod.mk.injEq] at h
        obtain ⟨rfl, rfl⟩ := h
        have hpr := ih (a := p.1) (b := p.2) (by rw [hsp])
        rw [List.cons_append]
        rw [splitTriple_cons_none]
        refine ⟨?_, hpr⟩
        by_contra hcon
        have ht : startsTriple (c :: (p.1 ++ [btick, btick])) = true := by
          cases hb : startsTriple (c :: (p.1 ++ [btick, btick]))
          · exact absurd hb hcon
          · rfl
        have hspec := splitTriple_spec (s := rest) (by rw [hsp])
        have ht2 : startsTriple (c :: (p.1 ++ (tksL ++ p.2))) = true :=
          starts_transfer (by decide) (by simp [tksL]) ht
        have hr2 : c :: rest = c :: (p.1 ++ (tksL ++ p.2)) := by
          rw [hspec]; simp
        rw [← hr2] at ht2
        rw [ht2] at hst
        exact hst rfl

/-- Assembling prefix ++ fence ++ rest with a fence-free prefix makes
splitTriple split exactly there. -/
theorem splitTriple_of_safe : ∀ {x : List Char} (y : List Char),
    splitTriple (x ++ [btick, btick]) = none →
    splitTriple (x ++ tksL ++ y) = some (x, y) := by
  intro x
  induction x with
  | nil =>
    intro y _
    rw [splitTriple.eq_def]
    dsimp only [tksL, List.nil_append, List.cons_append]
    rw [if_pos (by simp [startsTriple])]
    rfl
  | cons c x2 ih =>
    intro y hsafe
    rw [List.cons_append] at hsafe
    obtain ⟨hst0, hsafe2⟩ := splitTriple_cons_none.mp hsafe
    rw [List.cons_append, List.cons_append]
    rw [splitTriple.eq_def]
    dsimp only
    have hstf : startsTriple (c :: (x2 ++ tksL ++ y)) = false := by
      by_contra hcon
      have ht : startsTriple (c :: (x2 ++ tksL ++ y)) = true := by
        cases hb : startsTriple (c :: (x2 ++ tksL ++ y))
        · exact absurd hb hcon
        · rfl
      have ht' : startsTriple (c :: (x2 ++ (tksL ++ y))) = true := by
        rw [← List.append_assoc]
        exact ht
      have ht2 : startsTriple (c :: (x2 ++ [btick, btick])) = true :=
        starts_transfer (by simp [tksL]) (by decide) ht'
      rw [ht2] at hst0
      cases hst0
    rw [if_neg (by rw [hstf]; simp)]
    rw [ih y hsafe2]
    rfl

/-- Re-scanning a string that splitTriple already split finds the same
fence for any continuation. -/
theorem splitTriple_stable {s a b : List Char} (h : splitTriple s = some (a, b))
    (z : List Char) : splitTriple (a ++ tksL ++ z) = some (a, z) :=
  splitTriple_of_safe z (splitTriple_prior_safe h)

theorem dropWhile_dropWhile (p : Char → Bool) : ∀ l : List Char,
    List.dropWhile p (List.dropWhile p l) = List.dropWhile p l := by
  intro l
  induction l with
  | nil => rfl
  | cons c rest ih =>
    cases hp : p c with
    | true => simp only [List.dropWhile, hp]; exact ih
    | false => simp only [List.dropWhile, hp]

theorem dropWhile_length_eq {p : Char → Bool} : ∀ {l : List Char},
    (List.dropWhile p l).length = l.length → List.dropWhile p l = l := by
  intro l
  induction l with
  | nil => intro _; rfl
  | cons c rest ih =>
    intro h
    cases hp : p c with
    | true =>
      simp only [List.dropWhile, hp] at h
      have := dropWhile_len_le p rest
      simp only [List.length_cons] at h
      omega
    | false => simp only [List.dropWhile, hp]

theorem dropWhile_cons_self {p : Char → Bool} {c : Char} {t : List Char}
    (h : List.dropWhile p (c :: t) = c :: t) : p c = false := by
  cases hp : p c with
  | true =>
    simp only [List.dropWhile, hp] at h
    have := dropWhile_len_le p t
    have h2 := congrArg List.length h
    simp only [List.length_cons] at h2
    omega
  | false => rfl

theorem dropWhile_app_all {p : Char → Bool} : ∀ {u z : List Char},
    (∀ c ∈ u, p c = true) → List.dropWhile p (u ++ z) = List.dropWhile p z := by
  intro u
  induction u with
  | nil => intro z _; rfl
  | cons c rest ih =>
    intro z hu
    rw [List.cons_append]
    simp only [List.dropWhile, hu c (by simp)]
    exact ih (fun d hd => hu d (by simp [hd]))

theorem dropWhile_app_stop {p : Char → Bool} {c : Char} (hc : p c = false) :
    ∀ (u v : List Char), List.dropWhile p (u ++ c :: v) = List.dropWhile p u ++ c :: v := by
  intro u
  induction u with
  | nil =>
    intro v
    simp only [List.nil_append, List.dropWhile, hc]
  | cons d rest ih =>
    intro v
    rw [List.cons_append]
    cases hd : p d with
    | true => simp only [List.dropWhile, hd]; exact ih v
    | false => simp only [List.dropWhile, hd, List.cons_append]

theorem rstrip_idem (x : List Char) : rstripWS (rstripWS x) = rstripWS x := by
  simp only [rstripWS, List.reverse_reverse]
  rw [dropWhile_dropWhile]

theorem rstrip_decomp (x : List Char) : ∃ t, x = rstripWS x ++ t ∧
    (∀ c ∈ t, isPyWS c = true) := by
  refine ⟨(List.takeWhile isPyWS x.reverse).reverse, ?_, ?_⟩
  · have h2 := congrArg List.reverse
      (List.takeWhile_append_dropWhile (p := isPyWS) (l := x.reverse))
    rw [List.reverse_append, List.reverse_reverse] at h2
    exact h2.symm
  · intro c hc
    rw [List.mem_reverse] at hc
    exact List.mem_takeWhile_imp hc

theorem safe_rstrip {x : List Char} (h : splitTriple x = none) :
    splitTriple (rstripWS x) = none := by
  obtain ⟨t, ht, _⟩ := rstrip_decomp x
  rw [ht] at h
  exact safe_app_left h

theorem safe_lstrip_app {p : Char → Bool} : ∀ {a z : List Char},
    splitTriple (a ++ z) = none → splitTriple (List.dropWhile p a ++ z) = none := by
  intro a
  induction a with
  | nil => intro z h; simpa using h
  | cons c rest ih =>
    intro z h
    rw [List.cons_append] at h
    rw [List.dropWhile]
    split
    · exact ih (safe_cons_inv h)
    · exact h

theorem rstrip_cons_self_inv {c : Char} {rest : List Char}
    (h : rstripWS (c :: rest) = c :: rest) : rstripWS rest = rest := by
  have hlen : (List.dropWhile isPyWS (c :: rest).reverse).length = (c :: rest).reverse.length := by
    have := congrArg List.length h
    simp only [rstripWS, List.length_reverse] at this ⊢
    simpa using this
  have hdw : List.dropWhile isPyWS (c :: rest).reverse = (c :: rest).reverse :=
    dropWhile_length_eq hlen
  cases hr : rest.reverse with
  | nil =>
    have : rest = [] := by simpa using congrArg List.reverse hr
    simp [this, rstripWS]
  | cons d r2 =>
    have hshape : (c :: rest).reverse = d :: (r2 ++ [c]) := by
      rw [List.reverse_cons, hr]
      simp
    rw [hshape] at hdw
    have hd := dropWhile_cons_self hdw
    have : List.dropWhile isPyWS rest.reverse = rest.reverse := by
      rw [hr]
      simp only [List.dropWhile, hd]
    simp only [rstripWS, this, List.reverse_reverse]

theorem rstrip_dropWhile_comm {q : Char → Bool} : ∀ {v : List Char}, rstripWS v = v →
    rstripWS (List.dropWhile q v) = List.dropWhile q v := by
  intro v
  induction v with
  | nil => intro _; rfl
  | cons c rest ih =>
    intro hv
    rw [List.dropWhile]
    split
    · exact ih (rstrip_cons_self_inv hv)
    · exact hv

theorem pyStrip_idem (s : List Char) : pyStrip (pyStrip s) = pyStrip s := by
  simp only [pyStrip, lstripWS]
  have h1 : rstripWS (rstripWS s) = rstripWS s := rstrip_idem s
  have h2 : rstripWS (List.dropWhile isPyWS (rstripWS s)) =
      List.dropWhile isPyWS (rstripWS s) := rstrip_dropWhile_comm h1
  rw [h2, dropWhile_dropWhile]

theorem safe_pyStrip {x : List Char} (h : splitTriple x = none) :
    splitTriple (pyStrip x) = none :=
  safe_dropWhile (safe_rstrip h)

theorem rstrip_boundary {c : Char} (hc : isPyWS c = false) (x y : List Char) :
    rstripWS (x ++ c :: y) = x ++ c :: rstripWS y := by
  simp only [rstripWS]
  rw [List.reverse_append, List.reverse_cons, List.append_assoc, List.singleton_append]
  rw [dropWhile_app_stop hc]
  rw [List.reverse_append, List.reverse_cons, List.reverse_reverse]
  simp

theorem lstrip_boundary {c : Char} (hc : isPyWS c = false) (x y : List Char) :
    lstripWS (x ++ c :: y) = lstripWS x ++ c :: y := by
  simp only [lstripWS]
  exact dropWhile_app_stop hc x y

theorem rstrip_append_ws_one {c : Char} (hc : isPyWS c = true) (x : List Char) :
    rstripWS (x ++ [c]) = rstripWS x := by
  simp only [rstripWS]
  rw [List.reverse_append]
  simp only [List.reverse_cons, List.reverse_nil, List.nil_append, List.singleton_append]
  simp only [List.dropWhile, hc]

theorem subCodeF_of_none {s : List Char} (h : splitTriple s = none) :
    ∀ fuel, subCodeF fuel s = s := by
  intro fuel
  cases fuel with
  | zero => rfl
  | succ k =>
    rw [subCodeF.eq_def]
    dsimp only
    rw [h]

theorem subCodeF_of_one {s a r : List Char} (h1 : splitTriple s = some (a, r))
    (h2 : splitTriple r = none) : ∀ fuel, subCodeF fuel s = s := by
  intro fuel
  cases fuel with
  | zero => rfl
  | succ k =>
    rw [subCodeF.eq_def]
    dsimp only
    rw [h1]
    dsimp only
    rw [h2]

theorem subCodeF_succ_eq {s a r m t : List Char}
    (h1 : splitTriple s = some (a, r)) (h2 : splitTriple r = some (m, t))
    (fuel : Nat) :
    subCodeF (fuel + 1) s = a ++ tksL ++ codeLang m ++ '\n' :: pyStrip (codeBody m) ++
      '\n' :: tksL ++ subCodeF fuel t := by
  rw [subCodeF.eq_def]
  dsimp only
  rw [h1]
  dsimp only
  rw [h2]

theorem subCodeF_irrel : ∀ (k : Nat) {s : List Char} (n m : Nat), s.length ≤ k →
    s.length ≤ n → s.length ≤ m → subCodeF n s = subCodeF m s := by
  intro k
  induction k with
  | zero =>
    intro s n m hk _ _
    have hs : s = [] := by
      cases s with
      | nil => rfl
      | cons c r => simp at hk
    subst hs
    have hnil : splitTriple [] = none := rfl
    rw [subCodeF_of_none hnil, subCodeF_of_none hnil]
  | succ k ih =>
    intro s n m hk hn hm
    cases h1 : splitTriple s with
    | none => rw [subCodeF_of_none h1, subCodeF_of_none h1]
    | some p =>
      cases h2 : splitTriple p.2 with
      | none =>
        rw [subCodeF_of_one h1 h2, subCodeF_of_one h1 h2]
      | some q =>
        have hl1 := splitTriple_length (s := s) (by rw [h1])
        have hl2 := splitTriple_length (s := p.2) (by rw [h2])
        have hn1 : 1 ≤ n := by omega
        have hm1 : 1 ≤ m := by omega
        obtain ⟨n', rfl⟩ : ∃ n', n = n' + 1 := ⟨n - 1, by omega⟩
        obtain ⟨m', rfl⟩ : ∃ m', m = m' + 1 := ⟨m - 1, by omega⟩
        rw [subCodeF_succ_eq (a := p.1) (r := p.2) (m := q.1) (t := q.2)
          (by rw [h1]) (by rw [h2])]
        rw [subCodeF_succ_eq (a := p.1) (r := p.2) (m := q.1) (t := q.2)
          (by rw [h1]) (by rw [h2])]
        have hrec : subCodeF n' q.2 = subCodeF m' q.2 :=
          ih n' m' (by omega) (by omega) (by omega)
        rw [hrec]

theorem subCode_eq_block {s a r m t : List Char}
    (h1 : splitTriple s = some (a, r)) (h2 : splitTriple r = some (m, t)) :
    subCode s = a ++ tksL ++ codeLang m ++ '\n' :: pyStrip (codeBody m) ++
      '\n' :: tksL ++ subCode t := by
  have hl1 := splitTriple_length h1
  have hl2 := splitTriple_length h2
  obtain ⟨L, hL⟩ : ∃ L, s.length = L + 1 := ⟨s.length - 1, by omega⟩
  unfold subCode
  rw [hL]
  rw [subCodeF_succ_eq h1 h2]
  have : subCodeF L t = subCodeF t.length t :=
    subCodeF_irrel t.length L t.length (le_refl _) (by omega) (le_refl _)
  rw [this]

theorem subBoldF_id : ∀ (fuel : Nat) (s : List Char), subBoldF fuel s = s := by
  intro fuel
  induction fuel with
  | zero => intro s; rfl
  | succ k ih =>
    intro s
    rw [subBoldF.eq_def]
    dsimp only
    cases h1 : splitStars s with
    | none => rfl
    | some p =>
      dsimp only
      cases h2 : splitStars p.2 with
      | none => rfl
      | some q =>
        dsimp only
        rw [ih]
        have e1 := splitStars_spec (s := s) (a := p.1) (b := p.2) (by rw [h1])
        have e2 := splitStars_spec (s := p.2) (a := q.1) (b := q.2) (by rw [h2])
        rw [e1, e2]
        simp

theorem subBold_id (s : List Char) : subBold s = s := subBoldF_id s.length s

theorem subItalicGoF_id : ∀ (fuel : Nat) (prev : Option Char) (s : List Char),
    subItalicGoF fuel prev s = s := by
  intro fuel
  induction fuel with
  | zero => intro prev s; rfl
  | succ k ih =>
    intro prev s
    cases s with
    | nil => rfl
    | cons c rest =>
      rw [subItalicGoF.eq_def]
      dsimp only
      by_cases hc : c = '*'
      · subst hc
        rw [if_pos rfl]
        by_cases hg : prev ≠ some '*' ∧ rest.take 1 ≠ ['*']
        · rw [if_pos hg]
          by_cases hm : rest.takeWhile notStarNL ≠ [] ∧
              (rest.dropWhile notStarNL).take 1 = ['*'] ∧
              (rest.dropWhile notStarNL).take 2 ≠ ['*', '*']
          · rw [if_pos hm, ih]
            obtain ⟨_, ht1, _⟩ := hm
            have hsplit : List.takeWhile notStarNL rest ++
                List.dropWhile notStarNL rest = rest :=
              List.takeWhile_append_dropWhile notStarNL rest
            have hdrop : List.dropWhile notStarNL rest =
                '*' :: (List.dropWhile notStarNL rest).drop 1 := by
              cases hdw : List.dropWhile notStarNL rest with
              | nil => rw [hdw] at ht1; simp at ht1
              | cons e t2 =>
                rw [hdw] at ht1
                simp only [List.take] at ht1
                have : e = '*' := by
                  have := congrArg (fun l => l.head?) ht1
                  simpa using this
                rw [this]
                simp
            conv_rhs => rw [← hsplit, hdrop]
            simp
          · rw [if_neg hm, ih]
        · rw [if_neg hg, ih]
      · rw [if_neg hc, ih]

theorem subItalic_id (s : List Char) : subItalic s = s := subItalicGoF_id s.length none s

theorem wordChar_ne_btick {c : Char} (h : isWordChar c = true) : c ≠ btick := by
  intro hc
  subst hc
  have : isWordChar btick = false := by decide
  rw [this] at h
  cases h

theorem takeWhile_append_stop {p : Char → Bool} : ∀ {L : List Char} {d : Char},
    (∀ c ∈ L, p c = true) → p d = false →
    ∀ z, List.takeWhile p (L ++ d :: z) = L := by
  intro L
  induction L with
  | nil =>
    intro d _ hd z
    simp only [List.nil_append, List.takeWhile, hd]
  | cons c rest ih =>
    intro d hL hd z
    rw [List.cons_append]
    simp only [List.takeWhile, hL c (by simp)]
    rw [ih (fun e he => hL e (by simp [he])) hd z]

/-- A string has no code-fence match: at most one fence, never a pair. -/
def noCodeMatch (s : List Char) : Prop :=
  ∀ a r, splitTriple s = some (a, r) → splitTriple r = none

/-- Normal forms of the code-fence substitution: an alternation of
matchless text and rendered blocks whose language is word characters,
whose body is stripped and fence-free, and whose prefix is fence-free. -/
inductive CodeNorm : List Char → Prop where
  | dead (s : List Char) : noCodeMatch s → CodeNorm s
  | block (a lang sb rest : List Char)
      (ha : splitTriple (a ++ [btick, btick]) = none)
      (hlang : ∀ c ∈ lang, isWordChar c = true)
      (hsb : splitTriple sb = none)
      (hps : pyStrip sb = sb)
      (hrest : CodeNorm rest) :
      CodeNorm (a ++ tksL ++ lang ++ '\n' :: sb ++ '\n' :: tksL ++ rest)

/-- The output of the code-fence substitution is always in normal form. -/
theorem subCode_norm (s : List Char) : CodeNorm (subCode s) := by
  suffices h : ∀ n (s : List Char), s.length ≤ n → CodeNorm (subCode s) from
    h s.length s le_rfl
  intro n
  induction n with
  | zero =>
    intro s hs
    have hnil : s = [] := by
      cases s with
      | nil => rfl
      | cons c r => simp at hs
    subst hnil
    exact CodeNorm.dead [] (fun a r hh => by cases hh)
  | succ k ih =>
    intro s hs
    cases h1 : splitTriple s with
    | none =>
      rw [show subCode s = s from subCodeF_of_none h1 _]
      exact .dead s (fun a r hh => by rw [h1] at hh; cases hh)
    | some p =>
      cases h2 : splitTriple p.2 with
      | none =>
        rw [show subCode s = s from subCodeF_of_one (by rw [h1]) h2 _]
        refine .dead s (fun a r hh => ?_)
        rw [h1] at hh
        cases hh
        exact h2
      | some q =>
        rw [subCode_eq_block (a := p.1) (r := p.2) (m := q.1) (t := q.2)
          (by rw [h1]) (by rw [h2])]
        have hl1 := splitTriple_length (s := s) (a := p.1) (b := p.2) (by rw [h1])
        have hl2 := splitTriple_length (s := p.2) (a := q.1) (b := q.2) (by rw [h2])
        have hm2 : splitTriple q.1 = none :=
          safe_app_left (z := [btick, btick]) (splitTriple_prior_safe (by rw [h2]))
        have hb : splitTriple (codeBody q.1) = none := by
          unfold codeBody
          dsimp only
          split
          · exact safe_drop (safe_drop hm2 _) 1
          · exact safe_drop hm2 _
        exact CodeNorm.block p.1 (codeLang q.1) (pyStrip (codeBody q.1)) (subCode q.2)
          (splitTriple_prior_safe (by rw [h1]))
          (fun c hc => List.mem_takeWhile_imp hc)
          (safe_pyStrip hb)
          (pyStrip_idem _)
          (ih q.2 (by omega))

/-- Normal forms are fixed points of the code-fence substitution. -/
theorem codeNorm_fixed : ∀ {u : List Char}, CodeNorm u → subCode u = u := by
  intro u h
  induction h with
  | dead s hnc =>
    cases h1 : splitTriple s with
    | none => exact subCodeF_of_none h1 _
    | some p => exact subCodeF_of_one (by rw [h1]) (hnc p.1 p.2 (by rw [h1])) _
  | block a lang sb rest ha hlang hsb hps hrest ih =>
    have hsafeP : splitTriple ((lang ++ '\n' :: sb ++ ['\n']) ++ [btick, btick]) = none := by
      have hg1 : splitTriple (sb ++ '\n' :: [btick, btick]) = none :=
        safe_glue hsb (by decide)
      have hg2 : splitTriple ('\n' :: (sb ++ '\n' :: [btick, btick])) = none :=
        safe_cons (by decide) hg1
      have hg3 : splitTriple (lang ++ '\n' :: (sb ++ '\n' :: [btick, btick])) = none :=
        safe_words (fun c hc => wordChar_ne_btick (hlang c hc)) hg2
      have hshape : (lang ++ '\n' :: sb ++ ['\n']) ++ [btick, btick] =
          lang ++ '\n' :: (sb ++ '\n' :: [btick, btick]) := by simp
      rw [hshape]
      exact hg3
    have hsp1 : splitTriple (a ++ tksL ++ lang ++ '\n' :: sb ++ '\n' :: tksL ++ rest) =
        some (a, lang ++ '\n' :: sb ++ '\n' :: tksL ++ rest) := by
      have hof := splitTriple_of_safe (lang ++ '\n' :: sb ++ '\n' :: tksL ++ rest) ha
      have hshape : a ++ tksL ++ (lang ++ '\n' :: sb ++ '\n' :: tksL ++ rest) =
          a ++ tksL ++ lang ++ '\n' :: sb ++ '\n' :: tksL ++ rest := by simp
      rw [hshape] at hof
      exact hof
    have hsp2 : splitTriple (lang ++ '\n' :: sb ++ '\n' :: tksL ++ rest) =
        some (lang ++ '\n' :: sb ++ ['\n'], rest) := by
      have hof := splitTriple_of_safe rest hsafeP
      have hshape : (lang ++ '\n' :: sb ++ ['\n']) ++ tksL ++ rest =
          lang ++ '\n' :: sb ++ '\n' :: tksL ++ rest := by simp
      rw [hshape] at hof
      exact hof
    rw [subCode_eq_block hsp1 hsp2, ih]
    have hcl : codeLang (lang ++ '\n' :: sb ++ ['\n']) = lang := by
      unfold codeLang
      have hshape : lang ++ '\n' :: sb ++ ['\n'] = lang ++ '\n' :: (sb ++ ['\n']) := by
        simp
      rw [hshape]
      exact takeWhile_append_stop hlang (by decide) _
    have hcb : codeBody (lang ++ '\n' :: sb ++ ['\n']) = sb ++ ['\n'] := by
      unfold codeBody
      rw [hcl]
      have hshape : lang ++ '\n' :: sb ++ ['\n'] = lang ++ '\n' :: (sb ++ ['\n']) := by
        simp
      rw [hshape]
      have hd : (lang ++ '\n' :: (sb ++ ['\n'])).drop lang.length = '\n' :: (sb ++ ['\n']) :=
        List.drop_left lang ('\n' :: (sb ++ ['\n']))
      dsimp only
      rw [hd]
      rw [if_pos (by simp)]
      simp
    have hpb : pyStrip (sb ++ ['\n']) = sb := by
      unfold pyStrip
      rw [rstrip_append_ws_one (by decide) sb]
      unfold pyStrip at hps
      exact hps
    rw [hcl, hcb, hpb]

/-- Normal forms stay normal after right-stripping. -/
theorem codeNorm_rstrip : ∀ {u : List Char}, CodeNorm u → CodeNorm (rstripWS u) := by
  intro u h
  induction h with
  | dead s hnc =>
    cases h1 : splitTriple s with
    | none =>
      refine .dead _ (fun a r hh => ?_)
      rw [safe_rstrip h1] at hh
      cases hh
    | some p =>
      have hspec := splitTriple_spec (s := s) (a := p.1) (b := p.2) (by rw [h1])
      have hr : splitTriple p.2 = none := hnc p.1 p.2 (by rw [h1])
      have hb : rstripWS s = p.1 ++ tksL ++ rstripWS p.2 := by
        rw [hspec]
        have hshape : p.1 ++ tksL ++ p.2 = (p.1 ++ [btick, btick]) ++ btick :: p.2 := by
          simp [tksL]
        rw [hshape, rstrip_boundary (by decide)]
        simp [tksL]
      rw [hb]
      refine .dead _ (fun a r hh => ?_)
      rw [splitTriple_stable (s := s) (a := p.1) (b := p.2) (by rw [h1]) (rstripWS p.2)] at hh
      cases hh
      exact safe_rstrip hr
  | block a lang sb rest ha hlang hsb hps hrest ih =>
    have hshape : a ++ tksL ++ lang ++ '\n' :: sb ++ '\n' :: tksL ++ rest =
        (a ++ tksL ++ lang ++ '\n' :: sb ++ '\n' :: [btick, btick]) ++ btick :: rest := by
      simp [tksL]
    rw [hshape, rstrip_boundary (by decide)]
    have hshape2 : (a ++ tksL ++ lang ++ '\n' :: sb ++ '\n' :: [btick, btick]) ++
        btick :: rstripWS rest =
        a ++ tksL ++ lang ++ '\n' :: sb ++ '\n' :: tksL ++ rstripWS rest := by
      simp [tksL]
    rw [hshape2]
    exact .block a lang sb (rstripWS rest) ha hlang hsb hps ih

/-- Normal forms stay normal after left-stripping. -/
theorem codeNorm_lstrip : ∀ {u : List Char}, CodeNorm u → CodeNorm (lstripWS u) := by
  intro u h
  induction h with
  | dead s hnc =>
    cases h1 : splitTriple s with
    | none =>
      refine .dead _ (fun a r hh => ?_)
      have : splitTriple (lstripWS s) = none := safe_dropWhile h1
      rw [this] at hh
      cases hh
    | some p =>
      have hspec := splitTriple_spec (s := s) (a := p.1) (b := p.2) (by rw [h1])
      have hr : splitTriple p.2 = none := hnc p.1 p.2 (by rw [h1])
      have hb : lstripWS s = lstripWS p.1 ++ tksL ++ p.2 := by
        rw [hspec]
        have hshape : p.1 ++ tksL ++ p.2 = p.1 ++ btick :: ([btick, btick] ++ p.2) := by
          simp [tksL]
        rw [hshape, lstrip_boundary (by decide)]
        simp [tksL, lstripWS]
      rw [hb]
      refine .dead _ (fun a r hh => ?_)
      have hsafe : splitTriple (lstripWS p.1 ++ [btick, btick]) = none :=
        safe_lstrip_app (splitTriple_prior_safe (s := s) (by rw [h1]))
      rw [splitTriple_of_safe p.2 hsafe] at hh
      cases hh
      exact hr
  | block a lang sb rest ha hlang hsb hps hrest ih =>
    have hshape : a ++ tksL ++ lang ++ '\n' :: sb ++ '\n' :: tksL ++ rest =
        a ++ btick :: ([btick, btick] ++ (lang ++ '\n' :: sb ++ '\n' :: tksL ++ rest)) := by
      simp [tksL]
    rw [hshape, lstrip_boundary (by decide)]
    have hshape2 : lstripWS a ++ btick :: ([btick, btick] ++
        (lang ++ '\n' :: sb ++ '\n' :: tksL ++ rest)) =
        lstripWS a ++ tksL ++ lang ++ '\n' :: sb ++ '\n' :: tksL ++ rest := by
      simp [tksL]
    rw [hshape2]
    exact .block (lstripWS a) lang sb rest (safe_lstrip_app ha) hlang hsb hps hrest

/-- Normal forms stay normal after a full Python strip. -/
theorem codeNorm_pyStrip {u : List Char} (h : CodeNorm u) : CodeNorm (pyStrip u) :=
  codeNorm_lstrip (codeNorm_rstrip h)

theorem format_markdown_eq_code (s : List Char) :
    format_markdown s = pyStrip (subCode s) := by
  unfold format_markdown
  rw [subItalic_id, subBold_id]

/-- Claim C2: the markdown normalization of OllamaClient.format_markdown
is idempotent — the bold and italic re-renderings replace every match
with itself, and re-running the code-fence re-rendering on its own
stripped output changes nothing. -/
theorem C2_normalize_idem (s : List Char) :
    format_markdown (format_markdown s) = format_markdown s := by
  rw [format_markdown_eq_code, format_markdown_eq_code]
  rw [codeNorm_fixed (codeNorm_pyStrip (subCode_norm s))]
  exact pyStrip_idem _
